import Mathlib

/-!
Verification of the speaking-segment extraction engine
(extractSpeakingSegments.py): segment detection, duration filtering,
media-extraction command generation, and summary reporting, shallowly
embedded in Lean.  Scores and durations are modelled as rationals,
frame indices as naturals, external-process exit statuses as integers
supplied by an environment record.
-/

/-- Truncation toward zero of a rational, modelling the Python builtin
int() applied to a float (line 98 of extractSpeakingSegments.py). -/
def int_trunc (q : ℚ) : ℤ := if q < 0 then ⌈q⌉ else ⌊q⌋

/-- Loop of find_speaking_segments (lines 50-59): scan the score list
left to right; the Option argument is the variable named start in the
source (none encodes the Python value None), the Nat argument is the
current frame index.  On an inactive frame while a segment is open,
emit the pair (start, i); when the scores end while a segment is open,
emit (start, len), where the index argument has reached the length of
the whole score list. -/
def fssAux (threshold : ℚ) : List ℚ → ℕ → Option ℕ → List (ℕ × ℕ)
  | [], _, none => []
  | [], n, some start => [(start, n)]
  | x :: xs, i, none =>
      if threshold < x then fssAux threshold xs (i + 1) (some i)
      else fssAux threshold xs (i + 1) none
  | x :: xs, i, some start =>
      if threshold < x then fssAux threshold xs (i + 1) (some start)
      else (start, i) :: fssAux threshold xs (i + 1) none

/-- find_speaking_segments (lines 44-61).  The fps parameter is
declared by the source with default value 25 but does not occur in the
body; it is kept here for the same reason. -/
def find_speaking_segments (score_array : List ℚ) (threshold : ℚ) (fps : ℚ) :
    List (ℕ × ℕ) :=
  fssAux threshold score_array 0 none

/-- min_frames = int(args.minDuration * 25) (line 98); the frame rate
25 is a fixed constant in the source. -/
def min_frames (minDuration : ℚ) : ℤ := int_trunc (minDuration * 25)

/-- filtered_segments (line 99): keep the intervals whose frame length
is at least min_frames. -/
def filtered_segments (segments : List (ℕ × ℕ)) (minDuration : ℚ) :
    List (ℕ × ℕ) :=
  segments.filter (fun p => min_frames minDuration ≤ (p.2 : ℤ) - (p.1 : ℤ))

/-- DurationFilter as worded by the specification (section 4.2): it is
parameterized by an explicit fps and keeps an interval iff its frame
length is at least the truncation of minDurationSeconds * fps.  This
definition follows the words of the spec and is compared against the
source-level filtered_segments, which fixes fps = 25. -/
def DurationFilterSpec (intervals : List (ℕ × ℕ)) (minDurationSeconds fps : ℚ) :
    List (ℕ × ℕ) :=
  intervals.filter
    (fun p => int_trunc (minDurationSeconds * fps) ≤ (p.2 : ℤ) - (p.1 : ℤ))

/-- Files touched by the external media tool.  cropVideo and cropAudio
are the per-track inputs pycrop/XXXXX.avi and pycrop/XXXXX.wav (lines
108-109); segVideo and segAudio are the outputs
speaking_segments/track_XXXXX_segment_XXX.avi and .wav (lines
120-121); extFile is an arbitrary path given as a string (used by the
stand-alone helper extract_segment). -/
inductive FileRef where
  | cropVideo (trackIdx : ℕ)
  | cropAudio (trackIdx : ℕ)
  | segVideo (trackIdx segIdx : ℕ)
  | segAudio (trackIdx segIdx : ℕ)
  | extFile (path : String)
  deriving DecidableEq

/-- Invocations of the external media tool, one constructor per ffmpeg
command shape in the source: copyTrim is ffmpeg -ss start -t duration
-c copy (lines 71, 76, 129, 135), decodeAudio is ffmpeg -vn -acodec
<codec> -ar <rate> -ac <channels> (line 138), mux is ffmpeg -i video
-i audio -c:v copy -c:a copy (line 80). -/
inductive MediaCmd where
  | copyTrim (input : FileRef) (startTime duration : ℚ) (output : FileRef)
  | decodeAudio (input : FileRef) (acodec : String) (sampleRate channels : ℕ)
      (output : FileRef)
  | mux (video audio output : FileRef)
  deriving DecidableEq

/-- Commands issued for one kept segment by the extraction loop body
(lines 125-139): start_time = start_frame / 25.0 (line 126), duration
= (end_frame - start_frame) / 25.0 (line 119); the video clip is a
stream copy of the cropped video, and the wav is either a stream copy
of the separate cropped wav (line 135, when it exists) or a decode of
the audio stream of the just-written output clip into mono 16-bit PCM
at 16 kHz (line 138). -/
def segment_cmds (has_wav : Bool) (track_idx seg_idx : ℕ) (seg : ℕ × ℕ) :
    List MediaCmd :=
  let start_time : ℚ := (seg.1 : ℚ) / 25
  let duration : ℚ := ((seg.2 : ℚ) - (seg.1 : ℚ)) / 25
  [MediaCmd.copyTrim (FileRef.cropVideo track_idx) start_time duration
      (FileRef.segVideo track_idx seg_idx),
   if has_wav then
     MediaCmd.copyTrim (FileRef.cropAudio track_idx) start_time duration
       (FileRef.segAudio track_idx seg_idx)
   else
     MediaCmd.decodeAudio (FileRef.segVideo track_idx seg_idx) "pcm_s16le"
       16000 1 (FileRef.segAudio track_idx seg_idx)]

/-- Per-segment extraction loop (for seg_idx, ... in
enumerate(filtered_segments), lines 118-143): returns the commands
issued and the number of times total_segments was incremented (line
141).  The exit statuses of the subprocess.call invocations are not
inspected by the source, and no modelled operation raises a Python
exception, so the except branch (lines 142-143) is unreachable and
every visited segment increments the counter. -/
def extract_loop (has_wav : Bool) (track_idx : ℕ) :
    ℕ → List (ℕ × ℕ) → List MediaCmd × ℕ
  | _, [] => ([], 0)
  | seg_idx, seg :: rest =>
      let r := extract_loop has_wav track_idx (seg_idx + 1) rest
      (segment_cmds has_wav track_idx seg_idx seg ++ r.1, r.2 + 1)

/-- Outcome of processing one track: commands issued to the external
tool and the contribution to total_segments. -/
structure TrackResult where
  cmds : List MediaCmd
  extracted : ℕ
  deriving DecidableEq

/-- Facts about the file system and the external tool that the run
observes: existence of the two pickle collections (lines 24-32),
per-track existence of the cropped video (line 111) and of the
separate wav (line 116), and the exit status returned by the k-th
external media-tool invocation.  The source never reads these
statuses; they are carried so that properties about failing calls can
be stated. -/
structure Env where
  scoresExists : Bool
  tracksExists : Bool
  videoExists : ℕ → Bool
  wavExists : ℕ → Bool
  callStatus : ℕ → ℤ

/-- Body of the main per-track loop (lines 91-143): detect segments,
filter by minimum duration, skip the track if nothing is kept (line
101) or if the cropped video is missing (line 111), otherwise run the
extraction loop with has_wav = existence of the separate wav. -/
def process_track (env : Env) (threshold minDuration : ℚ) (track_idx : ℕ)
    (score : List ℚ) : TrackResult :=
  let segments := find_speaking_segments score threshold 25
  let filtered := filtered_segments segments minDuration
  if filtered.length = 0 then ⟨[], 0⟩
  else if env.videoExists track_idx = false then ⟨[], 0⟩
  else
    let r := extract_loop (env.wavExists track_idx) track_idx 0 filtered
    ⟨r.1, r.2⟩

/-- Main loop over zip(scores, tracks) with track_idx from enumerate
(line 91); the caller passes the scores truncated to the zip length. -/
def process_tracks (env : Env) (threshold minDuration : ℚ) :
    ℕ → List (List ℚ) → List TrackResult
  | _, [] => []
  | track_idx, score :: rest =>
      process_track env threshold minDuration track_idx score ::
      process_tracks env threshold minDuration (track_idx + 1) rest

/-- One per-track block of summary.txt (lines 167-173): the track
index and one line per kept segment holding start time, end time and
duration in seconds (start/25, end/25, end/25 - start/25). -/
structure SummaryBlock where
  trackIdx : ℕ
  lines : List (ℚ × ℚ × ℚ)
  deriving DecidableEq

/-- Contents of summary.txt (lines 153-173): header fields followed by
the per-track blocks. -/
structure Summary where
  videoName : String
  threshold : ℚ
  minDuration : ℚ
  totalTracks : ℕ
  totalExtracted : ℕ
  blocks : List SummaryBlock
  deriving DecidableEq

/-- Summary loop (for track_idx, score in enumerate(scores), lines
162-173): recompute the kept segments of every score sequence and
write a block only when at least one segment is kept (line 167). -/
def summary_blocks_aux (threshold minDuration : ℚ) :
    ℕ → List (List ℚ) → List SummaryBlock
  | _, [] => []
  | track_idx, score :: rest =>
      let fil := filtered_segments (find_speaking_segments score threshold 25)
        minDuration
      if 0 < fil.length then
        ⟨track_idx,
         fil.map (fun s =>
           ((s.1 : ℚ) / 25, (s.2 : ℚ) / 25, (s.2 : ℚ) / 25 - (s.1 : ℚ) / 25))⟩ ::
        summary_blocks_aux threshold minDuration (track_idx + 1) rest
      else summary_blocks_aux threshold minDuration (track_idx + 1) rest

/-- Per-track detail section of summary.txt, starting at track 0. -/
def summary_blocks (threshold minDuration : ℚ) (scores : List (List ℚ)) :
    List SummaryBlock :=
  summary_blocks_aux threshold minDuration 0 scores

/-- Observable outcome of a completed run: the final value of
total_segments (line 147 and line 160), every command issued to the
external media tool, and the summary file contents. -/
structure RunResult where
  total_segments : ℕ
  cmds : List MediaCmd
  summary : Summary

/-- Whole script (lines 24-173): abort with exit status 1 when either
pickle collection is missing (lines 24-32), otherwise process the
tracks and write the summary.  numTracks is the length of the loaded
track collection; zip(scores, tracks) visits only the first numTracks
score sequences, while the summary loop visits all of them. -/
def runScript (env : Env) (videoName : String) (threshold minDuration : ℚ)
    (scores : List (List ℚ)) (numTracks : ℕ) : Except ℕ RunResult :=
  if env.scoresExists = false then Except.error 1
  else if env.tracksExists = false then Except.error 1
  else
    let results := process_tracks env threshold minDuration 0
      (scores.take numTracks)
    let total := (results.map TrackResult.extracted).sum
    Except.ok
      { total_segments := total
        cmds := (results.map TrackResult.cmds).flatten
        summary :=
          { videoName := videoName
            threshold := threshold
            minDuration := minDuration
            totalTracks := numTracks
            totalExtracted := total
            blocks := summary_blocks threshold minDuration scores } }

/-- Stand-alone helper extract_segment (lines 63-87).  It is defined
by the source but never called by it; its body does use the fps
parameter (start_time = start_frame / fps, line 65).  Modelled as the
list of media-tool commands it would issue. -/
def extract_segment (input_video input_audio : String)
    (start_frame end_frame : ℕ) (output_path : String) (fps : ℚ) :
    List MediaCmd :=
  let start_time : ℚ := (start_frame : ℚ) / fps
  let end_time : ℚ := (end_frame : ℚ) / fps
  let duration : ℚ := end_time - start_time
  [MediaCmd.copyTrim (FileRef.extFile input_video) start_time duration
      (FileRef.extFile (output_path ++ "_temp.avi")),
   MediaCmd.copyTrim (FileRef.extFile input_audio) start_time duration
      (FileRef.extFile (output_path ++ "_temp.wav")),
   MediaCmd.mux (FileRef.extFile (output_path ++ "_temp.avi"))
      (FileRef.extFile (output_path ++ "_temp.wav"))
      (FileRef.extFile output_path)]

/-- Well-formedness of an interval list: starts at or after lo, each
interval is nonempty, ends at or before hi, and each interval begins
at or after the end of the previous one. -/
def IntervalsOK : ℕ → ℕ → List (ℕ × ℕ) → Prop
  | _, _, [] => True
  | lo, hi, p :: rest => lo ≤ p.1 ∧ p.1 < p.2 ∧ p.2 ≤ hi ∧ IntervalsOK p.2 hi rest

lemma intervalsOK_mono {lo lo' hi : ℕ} {l : List (ℕ × ℕ)}
    (h : IntervalsOK lo hi l) (hle : lo' ≤ lo) : IntervalsOK lo' hi l := by
  cases l with
  | nil => trivial
  | cons p rest => exact ⟨le_trans hle h.1, h.2.1, h.2.2.1, h.2.2.2⟩

lemma intervalsOK_mem {hi : ℕ} {l : List (ℕ × ℕ)} :
    ∀ {lo : ℕ}, IntervalsOK lo hi l →
      ∀ p ∈ l, lo ≤ p.1 ∧ p.1 < p.2 ∧ p.2 ≤ hi := by
  induction l with
  | nil => intro lo _ p hp; cases hp
  | cons q rest ih =>
    intro lo h p hp
    obtain ⟨h1, h2, h3, h4⟩ := h
    rcases List.mem_cons.mp hp with rfl | hp
    · exact ⟨h1, h2, h3⟩
    · have hr := ih h4 p hp
      exact ⟨le_trans (le_trans h1 (le_of_lt h2)) hr.1, hr.2⟩

lemma intervalsOK_pairwise {hi : ℕ} {l : List (ℕ × ℕ)} :
    ∀ {lo : ℕ}, IntervalsOK lo hi l →
      l.Pairwise (fun p q => p.2 ≤ q.1) := by
  induction l with
  | nil => intro lo _; exact List.Pairwise.nil
  | cons q rest ih =>
    intro lo h
    obtain ⟨_, _, _, h4⟩ := h
    exact List.Pairwise.cons (fun p hp => (intervalsOK_mem h4 p hp).1) (ih h4)

/-- Loop invariant of the detector: starting at frame n with open
state st (where an open start s always satisfies s < n), the emitted
intervals are well-formed between the open start (or n) and the final
frame index n + length of the remaining scores. -/
lemma fssAux_ok (th : ℚ) (xs : List ℚ) :
    ∀ (n : ℕ) (st : Option ℕ), (∀ s, st = some s → s < n) →
      IntervalsOK (st.getD n) (n + xs.length) (fssAux th xs n st) := by
  induction xs with
  | nil =>
    intro n st h
    cases st with
    | none => simp only [fssAux]; trivial
    | some s =>
      simp only [fssAux, Option.getD_some, List.length_nil, Nat.add_zero]
      exact ⟨le_refl s, h s rfl, le_refl n, trivial⟩
  | cons x xs ih =>
    intro n st h
    have e : n + (x :: xs).length = (n + 1) + xs.length := by
      simp only [List.length_cons]; omega
    cases st with
    | none =>
      by_cases hx : th < x
      · have hrec := ih (n + 1) (some n) (by intro s hs; cases hs; omega)
        simp only [fssAux, if_pos hx]
        simp only [Option.getD_some] at hrec
        rw [e]
        exact hrec
      · have hrec := ih (n + 1) none (by intro s hs; cases hs)
        simp only [fssAux, if_neg hx]
        simp only [Option.getD_none] at hrec
        rw [e]
        exact intervalsOK_mono hrec (Nat.le_succ n)
    | some s =>
      by_cases hx : th < x
      · have hrec := ih (n + 1) (some s)
          (by intro s' hs'; cases hs'; exact lt_trans (h s rfl) (Nat.lt_succ_self n))
        simp only [fssAux, if_pos hx]
        simp only [Option.getD_some] at hrec ⊢
        rw [e]
        exact hrec
      · have hrec := ih (n + 1) none (by intro s' hs'; cases hs')
        simp only [fssAux, if_neg hx]
        simp only [Option.getD_some, Option.getD_none] at hrec ⊢
        rw [e]
        exact ⟨le_refl s, h s rfl, by omega, intervalsOK_mono hrec (Nat.le_succ n)⟩

/-- Claim C1: for every interval list, minimum duration and fps, the
DurationFilter of the specification keeps an interval iff its frame
length is at least the truncation toward zero of
minDurationSeconds * fps (inclusive at equality), it preserves the
relative order of the input (sublist), the source-level filter
filtered_segments coincides with it at the fixed source frame rate 25,
and in particular minDuration 1/2 at fps 25 yields 12 minimum frames,
so a length-12 interval is kept and a length-11 interval is dropped. -/
theorem duration_filter_keeps_iff :
    (∀ (intervals : List (ℕ × ℕ)) (minDur fps : ℚ) (p : ℕ × ℕ),
        p ∈ DurationFilterSpec intervals minDur fps ↔
          p ∈ intervals ∧ int_trunc (minDur * fps) ≤ (p.2 : ℤ) - (p.1 : ℤ)) ∧
    (∀ (intervals : List (ℕ × ℕ)) (minDur fps : ℚ),
        (DurationFilterSpec intervals minDur fps).Sublist intervals) ∧
    (∀ (intervals : List (ℕ × ℕ)) (minDur : ℚ),
        filtered_segments intervals minDur = DurationFilterSpec intervals minDur 25) ∧
    min_frames (1 / 2) = 12 ∧
    filtered_segments [(0, 12)] (1 / 2) = [(0, 12)] ∧
    filtered_segments [(0, 11)] (1 / 2) = [] := by
  have htr : int_trunc ((1 / 2 : ℚ) * 25) = 12 := by
    rw [int_trunc, if_neg (by norm_num)]
    norm_num
  have hmf : min_frames (1 / 2) = 12 := by rw [min_frames, htr]
  refine ⟨?_, ?_, ?_, hmf, ?_, ?_⟩
  · intro intervals minDur fps p
    simp [DurationFilterSpec, List.mem_filter]
  · intro intervals minDur fps
    exact List.filter_sublist intervals
  · intro intervals minDur
    simp only [filtered_segments, DurationFilterSpec, min_frames]
  · simp only [filtered_segments, List.filter, hmf]
    norm_num
  · simp only [filtered_segments, List.filter, hmf]
    norm_num

/-- Claim C2: for every score sequence, threshold and fps, the
intervals returned by the detector are pairwise disjoint (each ends at
or before the next starts, hence as half-open frame ranges they share
no frame) and strictly increasing in start index, and every interval
(start, end) satisfies start < end and end at most the number of
scores (starts are naturals, so 0 is a lower bound). -/
theorem detector_disjoint_sorted (scores : List ℚ) (threshold fps : ℚ) :
    ((find_speaking_segments scores threshold fps).Pairwise
      (fun p q => p.2 ≤ q.1 ∧ p.1 < q.1)) ∧
    (∀ p ∈ find_speaking_segments scores threshold fps,
      p.1 < p.2 ∧ p.2 ≤ scores.length) := by
  have hok := fssAux_ok threshold scores 0 none (by intro s hs; cases hs)
  simp only [Option.getD_none, Nat.zero_add] at hok
  constructor
  · refine List.Pairwise.imp_of_mem ?_ (intervalsOK_pairwise hok)
    intro p q hp hq hpq
    have hpb := intervalsOK_mem hok p hp
    exact ⟨hpq, lt_of_lt_of_le hpb.2.1 hpq⟩
  · intro p hp
    exact (intervalsOK_mem hok p hp).2

/-- Witness for C2 at a concrete input: scores 0,0,1,1,1,0,1,1,0 with
threshold 0 yield the intervals (2,5) and (6,8). -/
theorem detector_disjoint_sorted_witness :
    (2, 5) ∈ find_speaking_segments [0, 0, 1, 1, 1, 0, 1, 1, 0] 0 25 ∧
    ((2 : ℕ) < 5 ∧ 5 ≤ ([0, 0, 1, 1, 1, 0, 1, 1, 0] : List ℚ).length) := by
  constructor
  · decide
  · exact (detector_disjoint_sorted [0, 0, 1, 1, 1, 0, 1, 1, 0] 0 25).2 (2, 5)
      (by decide)

/-- Every frame inside an emitted interval that lies at or past the
current scan position n is strictly above the threshold; positions are
relative to the remaining score list xs, whose element j - n is the
global frame j. -/
lemma fssAux_active (th : ℚ) (xs : List ℚ) :
    ∀ (n : ℕ) (st : Option ℕ), ∀ p ∈ fssAux th xs n st,
      ∀ j, n ≤ j → p.1 ≤ j → j < p.2 → th < xs.getD (j - n) th := by
  induction xs with
  | nil =>
    intro n st p hp j h1 _ h3
    cases st with
    | none => cases hp
    | some s =>
      simp only [fssAux, List.mem_singleton] at hp
      subst hp
      exact absurd h3 (by omega)
  | cons x xs ih =>
    intro n st p hp j h1 h2 h3
    cases st with
    | none =>
      by_cases hx : th < x
      · simp only [fssAux, if_pos hx] at hp
        rcases Nat.eq_or_lt_of_le h1 with rfl | hj
        · simpa [Nat.sub_self] using hx
        · have := ih (n + 1) (some n) p hp j hj h2 h3
          rwa [show j - n = (j - (n + 1)) + 1 by omega, List.getD_cons_succ]
      · simp only [fssAux, if_neg hx] at hp
        have hb := intervalsOK_mem
          (fssAux_ok th xs (n + 1) none (by intro s hs; cases hs)) p hp
        simp only [Option.getD_none] at hb
        have hj : n + 1 ≤ j := le_trans hb.1 h2
        have := ih (n + 1) none p hp j hj h2 h3
        rwa [show j - n = (j - (n + 1)) + 1 by omega, List.getD_cons_succ]
    | some s =>
      by_cases hx : th < x
      · simp only [fssAux, if_pos hx] at hp
        rcases Nat.eq_or_lt_of_le h1 with rfl | hj
        · simpa [Nat.sub_self] using hx
        · have := ih (n + 1) (some s) p hp j hj h2 h3
          rwa [show j - n = (j - (n + 1)) + 1 by omega, List.getD_cons_succ]
      · simp only [fssAux, if_neg hx, List.mem_cons] at hp
        rcases hp with rfl | hp
        · exact absurd h3 (by omega)
        · have hb := intervalsOK_mem
            (fssAux_ok th xs (n + 1) none (by intro s' hs'; cases hs')) p hp
          simp only [Option.getD_none] at hb
          have hj : n + 1 ≤ j := le_trans hb.1 h2
          have := ih (n + 1) none p hp j hj h2 h3
          rwa [show j - n = (j - (n + 1)) + 1 by omega, List.getD_cons_succ]

/-- Claim C3: a frame whose score equals the threshold exactly is
never the start of a returned interval, nor contained in any returned
interval (strict-greater-than activity). -/
theorem threshold_tie_is_silent (scores : List ℚ) (threshold fps : ℚ) (i : ℕ)
    (hi : i < scores.length) (heq : scores.get ⟨i, hi⟩ = threshold) :
    ∀ p ∈ find_speaking_segments scores threshold fps,
      p.1 ≠ i ∧ ¬(p.1 ≤ i ∧ i < p.2) := by
  intro p hp
  have hcover : ¬(p.1 ≤ i ∧ i < p.2) := by
    rintro ⟨h2, h3⟩
    have hact := fssAux_active threshold scores 0 none p hp i (Nat.zero_le i) h2 h3
    rw [Nat.sub_zero, List.getD_eq_getElem scores threshold hi] at hact
    rw [show scores[i] = scores.get ⟨i, hi⟩ from rfl, heq] at hact
    exact lt_irrefl threshold hact
  refine ⟨?_, hcover⟩
  rintro rfl
  have hok := fssAux_ok threshold scores 0 none (by intro s hs; cases hs)
  simp only [Option.getD_none, Nat.zero_add] at hok
  have hb := intervalsOK_mem hok p hp
  exact hcover ⟨le_refl p.1, hb.2.1⟩

/-- Witness for C3: with scores 0,1 and threshold 0, frame 0 scores
exactly the threshold; the only interval is (1,2), which neither
starts at 0 nor contains 0. -/
theorem threshold_tie_is_silent_witness :
    (1, 2) ∈ find_speaking_segments [0, 1] 0 25 ∧
    ((1, 2).1 ≠ 0 ∧ ¬((1, 2).1 ≤ 0 ∧ 0 < (1, 2).2)) := by
  refine ⟨by decide, ?_⟩
  exact threshold_tie_is_silent [0, 1] 0 25 0 (by decide) (by decide) (1, 2)
    (by decide)

/-- If the remaining scores end with a frame strictly above the
threshold, the detector output is nonempty and its final interval
closes at the final frame index n + length. -/
lemma fssAux_last (th : ℚ) (xs : List ℚ) :
    ∀ (n : ℕ) (st : Option ℕ) (x : ℚ), xs.getLast? = some x → th < x →
      ∃ p, (fssAux th xs n st).getLast? = some p ∧ p.2 = n + xs.length := by
  induction xs with
  | nil => intro n st x hlast; cases hlast
  | cons y ys ih =>
    intro n st x hlast hx
    cases ys with
    | nil =>
      have hxy : x = y := by
        have := hlast
        simp only [List.getLast?_singleton, Option.some.injEq] at this
        exact this.symm
      subst hxy
      cases st with
      | none =>
        exact ⟨(n, n + 1), by simp [fssAux, if_pos hx], by simp⟩
      | some s =>
        exact ⟨(s, n + 1), by simp [fssAux, if_pos hx], by simp⟩
    | cons z zs =>
      have hlast' : (z :: zs).getLast? = some x := by
        rwa [List.getLast?_cons_cons] at hlast
      have elen : (n + 1) + (z :: zs).length = n + (y :: z :: zs).length := by
        simp only [List.length_cons]; omega
      cases st with
      | none =>
        by_cases hy : th < y
        · obtain ⟨p, hp1, hp2⟩ := ih (n + 1) (some n) x hlast' hx
          exact ⟨p, by rwa [show fssAux th (y :: z :: zs) n none =
            fssAux th (z :: zs) (n + 1) (some n) from by
              simp only [fssAux, if_pos hy]], by omega⟩
        · obtain ⟨p, hp1, hp2⟩ := ih (n + 1) none x hlast' hx
          exact ⟨p, by rwa [show fssAux th (y :: z :: zs) n none =
            fssAux th (z :: zs) (n + 1) none from by
              simp only [fssAux, if_neg hy]], by omega⟩
      | some s =>
        by_cases hy : th < y
        · obtain ⟨p, hp1, hp2⟩ := ih (n + 1) (some s) x hlast' hx
          exact ⟨p, by rwa [show fssAux th (y :: z :: zs) n (some s) =
            fssAux th (z :: zs) (n + 1) (some s) from by
              simp only [fssAux, if_pos hy]], by omega⟩
        · obtain ⟨p, hp1, hp2⟩ := ih (n + 1) none x hlast' hx
          refine ⟨p, ?_, by omega⟩
          rw [show fssAux th (y :: z :: zs) n (some s) =
            (s, n) :: fssAux th (z :: zs) (n + 1) none from by
              simp only [fssAux, if_neg hy]]
          cases hrec : fssAux th (z :: zs) (n + 1) none with
          | nil => rw [hrec] at hp1; cases hp1
          | cons q l => rw [hrec] at hp1; rwa [List.getLast?_cons_cons]

/-- Claim C4: whenever the last frame is active (score strictly above
the threshold), the detector returns a nonempty interval list whose
final interval ends exactly at the number of scores; no trailing
active frame is dropped. -/
theorem trailing_active_frame_kept (scores : List ℚ) (threshold fps : ℚ)
    (x : ℚ) (hlast : scores.getLast? = some x) (hx : threshold < x) :
    find_speaking_segments scores threshold fps ≠ [] ∧
    ∃ p, (find_speaking_segments scores threshold fps).getLast? = some p ∧
      p.2 = scores.length := by
  obtain ⟨p, hp1, hp2⟩ := fssAux_last threshold scores 0 none x hlast hx
  rw [Nat.zero_add] at hp2
  refine ⟨?_, p, hp1, hp2⟩
  intro hnil
  rw [show fssAux threshold scores 0 none =
    find_speaking_segments scores threshold fps from rfl, hnil] at hp1
  cases hp1

/-- Witness for C4: scores 0,1 with threshold 0 end actively; the
detector returns a list whose last interval is (1,2), closing at the
sequence length 2. -/
theorem trailing_active_frame_kept_witness :
    find_speaking_segments [0, 1] 0 25 ≠ [] ∧
    ∃ p, (find_speaking_segments [0, 1] 0 25).getLast? = some p ∧
      p.2 = ([0, 1] : List ℚ).length :=
  trailing_active_frame_kept [0, 1] 0 25 1 (by decide) (by decide)

lemma extract_loop_count (has_wav : Bool) (track_idx : ℕ) :
    ∀ (j : ℕ) (l : List (ℕ × ℕ)),
      (extract_loop has_wav track_idx j l).2 = l.length := by
  intro j l
  induction l generalizing j with
  | nil => rfl
  | cons seg rest ih =>
    simp only [extract_loop, List.length_cons, ih (j + 1)]

lemma extract_loop_mem (has_wav : Bool) (track_idx : ℕ) :
    ∀ (l : List (ℕ × ℕ)) (j k : ℕ), k < l.length →
      ∀ c ∈ segment_cmds has_wav track_idx (j + k) (l.getD k (0, 0)),
        c ∈ (extract_loop has_wav track_idx j l).1 := by
  intro l
  induction l with
  | nil => intro j k hk; exact absurd hk (by simp)
  | cons seg rest ih =>
    intro j k hk c hc
    cases k with
    | zero =>
      simp only [Nat.add_zero, List.getD_cons_zero] at hc
      exact List.mem_append_left _ hc
    | succ k =>
      simp only [List.getD_cons_succ] at hc
      rw [show j + (k + 1) = (j + 1) + k by omega] at hc
      exact List.mem_append_right _
        (ih (j + 1) k (by simpa using hk) c hc)

/-- Claim C7: when the score collection or the track collection is
missing, the run terminates with the fatal non-zero status 1 before
any per-track processing; the error result carries no extraction
commands, no counts and no summary. -/
theorem missing_inputs_abort (env : Env) (videoName : String)
    (threshold minDuration : ℚ) (scores : List (List ℚ)) (numTracks : ℕ)
    (h : env.scoresExists = false ∨ env.tracksExists = false) :
    runScript env videoName threshold minDuration scores numTracks =
      Except.error 1 ∧ (1 : ℕ) ≠ 0 := by
  refine ⟨?_, by decide⟩
  rcases h with h | h
  · simp [runScript, h]
  · cases hsc : env.scoresExists <;> simp [runScript, h, hsc]

/-- Witness for C7: a concrete environment with the score collection
absent makes the run abort with status 1. -/
def envMissing : Env where
  scoresExists := false
  tracksExists := true
  videoExists := fun _ => true
  wavExists := fun _ => true
  callStatus := fun _ => 0

/-- Name of the demo video used in concrete runs. -/
def demoName : String := "002"

theorem missing_inputs_abort_witness :
    runScript envMissing demoName 0 (1 / 2) [[1]] 1 = Except.error 1 ∧
    (1 : ℕ) ≠ 0 :=
  missing_inputs_abort envMissing demoName 0 (1 / 2) [[1]] 1 (Or.inl rfl)

/-- Claim C8: for a track whose cropped video exists but whose
separate wav does not, every kept segment is still extracted (the
counter counts all kept segments) and for each kept segment both
output files are produced: the video clip by a stream-copy trim of the
cropped video, and the wav by decoding the audio stream of that very
clip into mono (1 channel) 16-bit PCM (pcm_s16le) at 16000 Hz. -/
theorem audio_fallback_extracts (env : Env) (threshold minDuration : ℚ)
    (track_idx : ℕ) (score : List ℚ)
    (hv : env.videoExists track_idx = true)
    (hw : env.wavExists track_idx = false) :
    (process_track env threshold minDuration track_idx score).extracted =
      (filtered_segments (find_speaking_segments score threshold 25)
        minDuration).length ∧
    ∀ (k : ℕ) (seg : ℕ × ℕ),
      k < (filtered_segments (find_speaking_segments score threshold 25)
        minDuration).length →
      (filtered_segments (find_speaking_segments score threshold 25)
        minDuration).getD k (0, 0) = seg →
      MediaCmd.copyTrim (FileRef.cropVideo track_idx) ((seg.1 : ℚ) / 25)
          (((seg.2 : ℚ) - (seg.1 : ℚ)) / 25) (FileRef.segVideo track_idx k) ∈
        (process_track env threshold minDuration track_idx score).cmds ∧
      MediaCmd.decodeAudio (FileRef.segVideo track_idx k) "pcm_s16le" 16000 1
          (FileRef.segAudio track_idx k) ∈
        (process_track env threshold minDuration track_idx score).cmds := by
  by_cases h0 :
      (filtered_segments (find_speaking_segments score threshold 25)
        minDuration).length = 0
  · constructor
    · simp [process_track, h0]
    · intro k seg hk _
      omega
  · have hpt : process_track env threshold minDuration track_idx score =
        ⟨(extract_loop false track_idx 0
            (filtered_segments (find_speaking_segments score threshold 25)
              minDuration)).1,
         (extract_loop false track_idx 0
            (filtered_segments (find_speaking_segments score threshold 25)
              minDuration)).2⟩ := by
      simp only [process_track, if_neg h0, hv, hw]
      simp
    constructor
    · rw [hpt]
      exact extract_loop_count false track_idx 0 _
    · intro k seg hk hseg
      rw [hpt]
      have hmem := extract_loop_mem false track_idx
        (filtered_segments (find_speaking_segments score threshold 25)
          minDuration) 0 k hk
      rw [Nat.zero_add, hseg] at hmem
      constructor
      · exact hmem _ (by simp [segment_cmds])
      · exact hmem _ (by simp [segment_cmds])

/-- Environment of a track with a cropped video but no separate wav;
all external calls succeed. -/
def envNoWav : Env where
  scoresExists := true
  tracksExists := true
  videoExists := fun _ => true
  wavExists := fun _ => false
  callStatus := fun _ => 0

theorem audio_fallback_extracts_witness :
    MediaCmd.decodeAudio (FileRef.segVideo 0 0) "pcm_s16le" 16000 1
      (FileRef.segAudio 0 0) ∈ (process_track envNoWav 0 0 0 [1]).cmds ∧
    (process_track envNoWav 0 0 0 [1]).extracted = 1 := by
  have h := audio_fallback_extracts envNoWav 0 0 0 [1] rfl rfl
  have hmf0 : min_frames 0 = 0 := by
    rw [min_frames, int_trunc, if_neg (by norm_num)]
    norm_num
  have hfss : find_speaking_segments [1] 0 25 = [(0, 1)] := by decide
  have hfil : filtered_segments (find_speaking_segments [1] 0 25) 0 =
      [(0, 1)] := by
    rw [hfss, filtered_segments]
    simp [hmf0]
  refine ⟨?_, ?_⟩
  · exact (h.2 0 (0, 1) (by rw [hfil]; decide) (by rw [hfil]; rfl)).2
  · rw [h.1, hfil]
    rfl

/-- The per-track detail written by the summary loop started at index
n holds a block with index i exactly when i lies in the range of the
remaining score sequences and the corresponding sequence keeps at
least one segment. -/
lemma summary_blocks_aux_exact (threshold minDuration : ℚ) :
    ∀ (scores : List (List ℚ)) (n i : ℕ),
      (∃ b ∈ summary_blocks_aux threshold minDuration n scores,
        b.trackIdx = i) ↔
      (∃ j, j < scores.length ∧ i = n + j ∧
        (filtered_segments
          (find_speaking_segments (scores.getD j []) threshold 25)
          minDuration).length ≠ 0) := by
  intro scores
  induction scores with
  | nil =>
    intro n i
    simp [summary_blocks_aux]
  | cons sc rest ih =>
    intro n i
    by_cases hf : 0 <
        (filtered_segments (find_speaking_segments sc threshold 25)
          minDuration).length
    · rw [show summary_blocks_aux threshold minDuration n (sc :: rest) =
        ⟨n, (filtered_segments (find_speaking_segments sc threshold 25)
              minDuration).map (fun s =>
          ((s.1 : ℚ) / 25, (s.2 : ℚ) / 25,
            (s.2 : ℚ) / 25 - (s.1 : ℚ) / 25))⟩ ::
          summary_blocks_aux threshold minDuration (n + 1) rest from by
        simp only [summary_blocks_aux, if_pos hf]]
      constructor
      · rintro ⟨b, hb, rfl⟩
        rcases List.mem_cons.mp hb with rfl | hb
        · exact ⟨0, by simp, by simp, by simpa using Nat.pos_iff_ne_zero.mp hf⟩
        · obtain ⟨j, hj, hij, hne⟩ := (ih (n + 1) b.trackIdx).mp ⟨b, hb, rfl⟩
          exact ⟨j + 1, by simpa using hj, by omega, by simpa using hne⟩
      · rintro ⟨j, hj, rfl, hne⟩
        cases j with
        | zero =>
          exact ⟨_, List.mem_cons_self _ _, by simp⟩
        | succ j =>
          obtain ⟨b, hb, hbi⟩ := (ih (n + 1) (n + (j + 1))).mpr
            ⟨j, by simpa using hj, by omega, by simpa using hne⟩
          exact ⟨b, List.mem_cons_of_mem _ hb, hbi⟩
    · rw [show summary_blocks_aux threshold minDuration n (sc :: rest) =
        summary_blocks_aux threshold minDuration (n + 1) rest from by
        simp only [summary_blocks_aux, if_neg hf]]
      rw [ih (n + 1) i]
      constructor
      · rintro ⟨j, hj, rfl, hne⟩
        exact ⟨j + 1, by simpa using hj, by omega, by simpa using hne⟩
      · rintro ⟨j, hj, rfl, hne⟩
        cases j with
        | zero =>
          simp only [List.getD_cons_zero] at hne
          omega
        | succ j =>
          exact ⟨j, by simpa using hj, by omega, by simpa using hne⟩

/-- Claim C9: whenever the run completes, the per-track detail of the
summary contains a block exactly for those track indices whose score
sequence keeps at least one segment (zero-kept tracks are omitted),
while the total track count of the summary header counts every loaded
track, including the zero-kept ones. -/
theorem summary_detail_exact (env : Env) (videoName : String)
    (threshold minDuration : ℚ) (scores : List (List ℚ)) (numTracks : ℕ)
    (h1 : env.scoresExists = true) (h2 : env.tracksExists = true)
    (r : RunResult)
    (hr : runScript env videoName threshold minDuration scores numTracks =
      Except.ok r) :
    r.summary.totalTracks = numTracks ∧
    ∀ i : ℕ, (∃ b ∈ r.summary.blocks, b.trackIdx = i) ↔
      (i < scores.length ∧
        (filtered_segments
          (find_speaking_segments (scores.getD i []) threshold 25)
          minDuration).length ≠ 0) := by
  simp only [runScript, h1, h2, Bool.true_eq_false, if_false,
    Except.ok.injEq] at hr
  subst hr
  refine ⟨rfl, ?_⟩
  intro i
  rw [show (summary_blocks threshold minDuration scores : List SummaryBlock) =
    summary_blocks_aux threshold minDuration 0 scores from rfl]
  rw [summary_blocks_aux_exact threshold minDuration scores 0 i]
  constructor
  · rintro ⟨j, hj, rfl, hne⟩
    exact ⟨by omega, by simpa using hne⟩
  · rintro ⟨hi, hne⟩
    exact ⟨i, hi, by omega, hne⟩

/-- Result of the run over one track whose score sequence is empty:
nothing is extracted and the detail section has no block, while the
header still counts the one loaded track. -/
def emptyTrackRun : RunResult where
  total_segments := 0
  cmds := []
  summary :=
    { videoName := demoName
      threshold := 0
      minDuration := 0
      totalTracks := 1
      totalExtracted := 0
      blocks := [] }

theorem summary_detail_exact_witness :
    emptyTrackRun.summary.totalTracks = 1 ∧
    ∀ i : ℕ,
      (∃ b ∈ emptyTrackRun.summary.blocks, b.trackIdx = i) ↔
      (i < ([[]] : List (List ℚ)).length ∧
        (filtered_segments
          (find_speaking_segments (([[]] : List (List ℚ)).getD i []) 0 25)
          0).length ≠ 0) :=
  summary_detail_exact envNoWav demoName 0 0 [[]] 1 rfl rfl emptyTrackRun rfl

/-- Environment in which every external media-tool invocation reports
failure (exit status 1) while both pickle collections and all track
media exist. -/
def envAllFail : Env where
  scoresExists := true
  tracksExists := true
  videoExists := fun _ => true
  wavExists := fun _ => true
  callStatus := fun _ => 1

lemma min_frames_zero : min_frames 0 = 0 := by
  rw [min_frames, int_trunc, if_neg (by norm_num)]
  norm_num

lemma fss_single : find_speaking_segments [1] 0 25 = [(0, 1)] := by decide

lemma fil_single : filtered_segments (find_speaking_segments [1] 0 25) 0 =
    [(0, 1)] := by
  rw [fss_single, filtered_segments]
  simp [min_frames_zero]

lemma process_track_allFail (t : ℕ) :
    process_track envAllFail 0 0 t [1] =
      ⟨(extract_loop true t 0 [(0, 1)]).1,
       (extract_loop true t 0 [(0, 1)]).2⟩ := by
  simp only [process_track, fil_single]
  simp [envAllFail]

/-- Claim C5 (code evaluated at the failing input): in an environment
where every external media-tool invocation reports the non-zero exit
status 1, the run over one track with one kept segment still counts
that segment as extracted (total_segments = 1) and still reports it in
the summary header and in a per-track detail block; the exit statuses
are never consulted by the source, so a failed extraction is reported
as extracted. -/
theorem failed_extraction_still_reported :
    (∀ k, envAllFail.callStatus k ≠ 0) ∧
    ∃ r, runScript envAllFail demoName 0 0 [[1]] 1 = Except.ok r ∧
      r.total_segments = 1 ∧ r.summary.totalExtracted = 1 ∧
      ∃ b ∈ r.summary.blocks, b.trackIdx = 0 ∧ b.lines ≠ [] := by
  refine ⟨fun k => by simp [envAllFail], ?_⟩
  have htake : ([[1]] : List (List ℚ)).take 1 = [[1]] := rfl
  have hpts : process_tracks envAllFail 0 0 0 [[1]] =
      [process_track envAllFail 0 0 0 [1]] := rfl
  have hsum : summary_blocks 0 0 [[1]] =
      [⟨0, [((0 : ℚ) / 25, (1 : ℚ) / 25, (1 : ℚ) / 25 - (0 : ℚ) / 25)]⟩] := by
    rw [summary_blocks]
    simp only [summary_blocks_aux, fil_single]
    norm_num
  refine ⟨_, by simp only [runScript]; rfl, ?_, ?_, ?_⟩
  · simp only [htake, hpts, process_track_allFail, List.map_cons,
      List.map_nil, List.sum_cons, List.sum_nil, extract_loop_count]
    rfl
  · simp only [htake, hpts, process_track_allFail, List.map_cons,
      List.map_nil, List.sum_cons, List.sum_nil, extract_loop_count]
    rfl
  · rw [show (summary_blocks 0 0 [[1]] : List SummaryBlock) =
      [⟨0, [((0 : ℚ) / 25, (1 : ℚ) / 25, (1 : ℚ) / 25 - (0 : ℚ) / 25)]⟩]
      from hsum]
    exact ⟨_, List.mem_singleton_self _, rfl, by simp⟩

/-- Claim C6 (code evaluated at the failing input): with every
external invocation failing (exit status 1), a run over two tracks
does process both tracks to the end (the run is not aborted: all four
media-tool commands are issued and the run completes normally), but
the failing segments are not skipped: both are still counted. -/
theorem failed_extraction_not_skipped :
    (∀ k, envAllFail.callStatus k ≠ 0) ∧
    ∃ r, runScript envAllFail demoName 0 0 [[1], [1]] 2 = Except.ok r ∧
      r.total_segments = 2 ∧ r.cmds.length = 4 := by
  refine ⟨fun k => by simp [envAllFail], ?_⟩
  have hpts : process_tracks envAllFail 0 0 0 [[1], [1]] =
      [process_track envAllFail 0 0 0 [1],
       process_track envAllFail 0 0 1 [1]] := rfl
  refine ⟨_, by simp only [runScript]; rfl, ?_, ?_⟩
  · show ((process_tracks envAllFail 0 0 0
        (([[1], [1]] : List (List ℚ)).take 2)).map TrackResult.extracted).sum = 2
    rw [show (([[1], [1]] : List (List ℚ)).take 2) = [[1], [1]] from rfl,
      hpts]
    simp only [process_track_allFail, List.map_cons, List.map_nil,
      List.sum_cons, List.sum_nil, extract_loop_count]
    rfl
  · show ((process_tracks envAllFail 0 0 0
        (([[1], [1]] : List (List ℚ)).take 2)).map TrackResult.cmds).flatten.length = 4
    rw [show (([[1], [1]] : List (List ℚ)).take 2) = [[1], [1]] from rfl,
      hpts]
    simp only [process_track_allFail, List.map_cons, List.map_nil]
    simp [extract_loop, segment_cmds]

/-- Path arguments used to exercise the stand-alone helper. -/
def sampleVideo : String := "video.avi"

/-- Separate audio path argument for the stand-alone helper. -/
def sampleAudio : String := "audio.wav"

/-- Output path argument for the stand-alone helper. -/
def sampleOut : String := "out.avi"

/-- Counterexample to claim C10 as stated: the helper extract_segment
does use its fps argument (start and end times are divided by fps in
its body, lines 65-66), so its result at fps 50 differs from its
result at fps 25 on the same frame interval. -/
theorem extract_segment_depends_on_fps :
    extract_segment sampleVideo sampleAudio 1 2 sampleOut 50 ≠
    extract_segment sampleVideo sampleAudio 1 2 sampleOut 25 := by
  intro h
  simp only [extract_segment, List.cons.injEq, MediaCmd.copyTrim.injEq] at h
  have := h.1.2.1
  norm_num at this

/-- Claim C10 as amended: the fps parameter of find_speaking_segments
is never used, so detection results are identical for every fps; the
minimum-frame count is the truncation of minDuration * 25 with the
frame rate fixed at 25; but the helper extract_segment, which the
script never calls, does use its fps argument, so its results are not
identical to fps 25 for every fps. -/
theorem fps_fixed_at_25 :
    (∀ (scores : List ℚ) (threshold fps : ℚ),
        find_speaking_segments scores threshold fps =
        find_speaking_segments scores threshold 25) ∧
    (∀ minDuration : ℚ, min_frames minDuration = int_trunc (minDuration * 25)) ∧
    extract_segment sampleVideo sampleAudio 25 50 sampleOut 50 ≠
      extract_segment sampleVideo sampleAudio 25 50 sampleOut 25 := by
  refine ⟨fun _ _ _ => rfl, fun _ => rfl, ?_⟩
  intro h
  simp only [extract_segment, List.cons.injEq, MediaCmd.copyTrim.injEq] at h
  have := h.1.2.1
  norm_num at this
